import Mathlib

/-!
Verification of the SAT → ILP reduction (src/sat.py and src/sat2.py).

The embedding models:
- `Operator` and `Set` (the formula model; `Formula.lit` is the `str`
  alternative of `Union[str, Set]`, `Formula.gate` is a `Set` node);
- `sat_to_ilp` / `process_set` (the linear encoder, src/sat2.py lines 19-64,
  identical in src/sat.py lines 20-65), with the PuLP problem modelled as an
  explicit list of linear constraints plus a maximization objective;
- `solve_ilp` (src/sat2.py lines 67-75), parametric in the external solver's
  verdict;
- `verify_sat` / `use_operator_on_values` / `use_operator_on_booleans`
  (the evaluator, src/sat.py lines 69-106), with Python runtime failures
  (KeyError, IndexError, AttributeError) made explicit in an error type.
-/

/-- `Operator` enum from the source (AND = 0, OR = 1, NOT = 2). -/
inductive Operator where
  | AND
  | OR
  | NOT
deriving DecidableEq

/-- The `Union[str, Set]` formula tree: `lit s` is a bare literal name
(`str`), `gate op vs` is a `Set` with `operator = op` and `values = vs`. -/
inductive Formula where
  | lit : String → Formula
  | gate : Operator → List Formula → Formula

/-- Python runtime failures surfaced by the code, plus the explicit
`Exception("No solution")` raised by `solve_ilp`. -/
inductive PyErr where
  | keyError : String → PyErr
  | attributeError : PyErr
  | indexError : PyErr
  | noSolution : PyErr
deriving DecidableEq

/-- ILP vars: `x s` is the decision variable `x_<s>` of literal `s`,
`aux n` is the auxiliary variable `aux_<n>`. -/
inductive Var where
  | x : String → Var
  | aux : Nat → Var
deriving DecidableEq

/-- Comparison relation of a linear constraint. -/
inductive CRel where
  | le
  | ge
  | eq
deriving DecidableEq

/-- A linear constraint `lhs REL const + Σ coeff · var`, the shape of every
constraint emitted by `process_set` (the left side is always a single
auxiliary variable). -/
structure LinCon where
  lhs : Var
  rel : CRel
  coeffs : List (Int × Var)
  const : Int
deriving DecidableEq

/-- Right-hand side value of a constraint under an integer assignment. -/
def LinCon.rhs (k : LinCon) (f : Var → Int) : Int :=
  k.const + (k.coeffs.map (fun p => p.1 * f p.2)).sum

/-- Whether an integer assignment satisfies one constraint. -/
def LinCon.check (k : LinCon) (f : Var → Int) : Bool :=
  match k.rel with
  | .le => decide (f k.lhs ≤ k.rhs f)
  | .ge => decide (k.rhs f ≤ f k.lhs)
  | .eq => decide (f k.lhs = k.rhs f)

/-- Whether an assignment satisfies a whole constraint list. -/
def satAll (cs : List LinCon) (f : Var → Int) : Bool :=
  cs.all (fun k => k.check f)

/-- Constraints emitted for an AND gate with auxiliary variable `a` over
operand vars `ws`: `a ≤ v` for each operand `v`, then
`a ≥ (Σ v) − n + 1` (src/sat2.py lines 45-48). -/
def andCons (a : Var) (ws : List Var) : List LinCon :=
  ws.map (fun v => ⟨a, .le, [(1, v)], 0⟩) ++
    [⟨a, .ge, ws.map (fun v => (1, v)), 1 - (ws.length : Int)⟩]

/-- Constraints emitted for an OR gate: `a ≥ v` for each operand `v`, then
`a ≤ Σ v` (src/sat2.py lines 50-53). -/
def orCons (a : Var) (ws : List Var) : List LinCon :=
  ws.map (fun v => ⟨a, .ge, [(1, v)], 0⟩) ++
    [⟨a, .le, ws.map (fun v => (1, v)), 0⟩]

/-- Constraint emitted for a NOT gate: `a = 1 − v` over the first operand
variable only (src/sat2.py lines 55-56). -/
def notCons (a : Var) (v : Var) : List LinCon :=
  [⟨a, .eq, [(-1, v)], 1⟩]

/-- Encoder state: the `vars` dict (insertion-ordered literal names;
the variable of name `s` is always `Var.x s`), the `aux_counter`, and the
constraints accumulated in the `LpProblem`. -/
structure EncState where
  vars : List String
  count : Nat
  cons : List LinCon
deriving DecidableEq

mutual

/-- `process_set` (src/sat2.py lines 32-58): for a `str`, return (creating
if new) its decision variable; for a `Set`, process all operands, allocate
the next auxiliary variable, and append the operator's constraints.
`values[0]` on an empty NOT operand list is Python's IndexError. -/
def process_set : Formula → EncState → Except PyErr (Var × EncState)
  | .lit s, st =>
      if st.vars.contains s then .ok (Var.x s, st)
      else .ok (Var.x s, ⟨st.vars ++ [s], st.count, st.cons⟩)
  | .gate op vs, st =>
      match process_list vs st with
      | .error e => .error e
      | .ok (ws, st1) =>
          let a := Var.aux st1.count
          match op with
          | .AND => .ok (a, ⟨st1.vars, st1.count + 1, st1.cons ++ andCons a ws⟩)
          | .OR => .ok (a, ⟨st1.vars, st1.count + 1, st1.cons ++ orCons a ws⟩)
          | .NOT =>
              match ws with
              | [] => .error .indexError
              | v :: _ => .ok (a, ⟨st1.vars, st1.count + 1, st1.cons ++ notCons a v⟩)

/-- The list comprehension `[process_set(v) for v in equation.values]`
(src/sat2.py line 41), threading the encoder state left to right. -/
def process_list : List Formula → EncState → Except PyErr (List Var × EncState)
  | [], st => .ok ([], st)
  | f :: fs, st =>
      match process_set f st with
      | .error e => .error e
      | .ok (w, st1) =>
          match process_list fs st1 with
          | .error e => .error e
          | .ok (ws, st2) => .ok (w :: ws, st2)

end

/-- Result of `sat_to_ilp`: the constraint list of the `LpProblem`, its
maximization objective (`problem += root, "Satisfiability"`), and the
literal-variable dict keys. -/
structure ILPResult where
  cons : List LinCon
  objective : Var
  vars : List String
deriving DecidableEq

/-- `sat_to_ilp` (src/sat2.py lines 19-64): encode from a fresh problem,
fresh variable dict and fresh aux counter, then set the root variable as
the maximization objective.  No `root = 1` constraint is added. -/
def sat_to_ilp (f : Formula) : Except PyErr ILPResult :=
  match process_set f ⟨[], 0, []⟩ with
  | .error e => .error e
  | .ok (root, st) => .ok ⟨st.cons, root, st.vars⟩

/-- Verdict of the external ILP solver (`problem.solve()`): either an
optimal variable assignment (PuLP status `Optimal`) or infeasibility. -/
inductive SolverOutcome where
  | optimal : (Var → Int) → SolverOutcome
  | infeasible : SolverOutcome

/-- `solve_ilp` (src/sat2.py lines 67-75), parametric in the solver: encode,
solve, and when the status is `Optimal` return `bool(round(var.value()))`
for each literal variable; otherwise raise `Exception("No solution")`. -/
def solve_ilp (f : Formula) (solver : List LinCon → Var → SolverOutcome) :
    Except PyErr (List (String × Bool)) :=
  match sat_to_ilp f with
  | .error e => .error e
  | .ok r =>
      match solver r.cons r.objective with
      | .optimal g => .ok (r.vars.map (fun s => (s, decide (g (Var.x s) ≠ 0))))
      | .infeasible => .error .noSolution

/-- View a solver-returned name/boolean list as an evaluator assignment
(Python dict lookup). -/
def toInput (l : List (String × Bool)) : String → Option Bool :=
  fun s => (l.find? (fun p => p.1 == s)).map (fun p => p.2)

/-- Whether a `Union[str, Set]` element `isinstance(v, str)` holds. -/
def isStr : Formula → Bool
  | .lit _ => true
  | .gate _ _ => false

/-- The name of a `str` element (`none` on a `Set`). -/
def strName : Formula → Option String
  | .lit s => some s
  | .gate _ _ => none

/-- `all(input[v] for v in values)` over string values: short-circuits at
the first `False`, raises KeyError at the first name missing from `input`
(src/sat.py line 92). -/
def allValues : List String → (String → Option Bool) → Except PyErr Bool
  | [], _ => .ok true
  | v :: vs, input =>
      match input v with
      | none => .error (.keyError v)
      | some false => .ok false
      | some true => allValues vs input

/-- `any(input[v] for v in values)`: short-circuits at the first `True`,
raises KeyError at the first missing name (src/sat.py line 94). -/
def anyValues : List String → (String → Option Bool) → Except PyErr Bool
  | [], _ => .ok false
  | v :: vs, input =>
      match input v with
      | none => .error (.keyError v)
      | some true => .ok true
      | some false => anyValues vs input

/-- `use_operator_on_values` (src/sat.py lines 86-95), receiving the string
values of an all-literal gate: NOT reads only `values[0]` (IndexError when
empty; the arity check is commented out in the source), AND/OR fold with
short-circuit. -/
def use_operator_on_values (op : Operator) (values : List String)
    (input : String → Option Bool) : Except PyErr Bool :=
  match op with
  | .NOT =>
      match values with
      | [] => .error .indexError
      | v :: _ =>
          match input v with
          | none => .error (.keyError v)
          | some b => .ok (!b)
  | .AND => allValues values input
  | .OR => anyValues values input

/-- `use_operator_on_booleans` (src/sat.py lines 97-106): NOT reads only
`booleans[0]` (IndexError when empty), AND is `all`, OR is `any`. -/
def use_operator_on_booleans (op : Operator) (booleans : List Bool) :
    Except PyErr Bool :=
  match op with
  | .NOT =>
      match booleans with
      | [] => .error .indexError
      | b :: _ => .ok (!b)
  | .AND => .ok (booleans.all (fun b => b))
  | .OR => .ok (booleans.any (fun b => b))

mutual

/-- `verify_sat` (src/sat.py lines 69-73).  A bare string reaching this
function hits `equation.values` on a `str`, Python's AttributeError.  A gate
whose values are all strings goes to `use_operator_on_values`; otherwise
every value (strings included) is recursed into. -/
def verify_sat : Formula → (String → Option Bool) → Except PyErr Bool
  | .lit _, _ => .error .attributeError
  | .gate op vs, input =>
      if vs.all isStr then
        use_operator_on_values op (vs.filterMap strName) input
      else
        match verify_list vs input with
        | .error e => .error e
        | .ok bs => use_operator_on_booleans op bs

/-- The list comprehension `[verify_sat(v, input) for v in equation.values]`
(src/sat.py line 73): fully evaluated left to right before the operator is
applied, propagating the first failure. -/
def verify_list : List Formula → (String → Option Bool) → Except PyErr (List Bool)
  | [], _ => .ok []
  | f :: fs, input =>
      match verify_sat f input with
      | .error e => .error e
      | .ok b =>
          match verify_list fs input with
          | .error e => .error e
          | .ok bs => .ok (b :: bs)

end

mutual

/-- Literal names referenced by a formula, in order of appearance. -/
def litsOf : Formula → List String
  | .lit s => [s]
  | .gate _ vs => litsList vs

/-- Literal names referenced by a list of formulas. -/
def litsList : List Formula → List String
  | [] => []
  | f :: fs => litsOf f ++ litsList fs

end

/-- An integer is a value of a 0/1 (binary) ILP variable. -/
def binary (n : Int) : Prop := n = 0 ∨ n = 1

/-- The contradiction `Gate(AND, [Literal("a"), Gate(NOT, [Literal("a")])])`
from the spec's unsat-detection scenario. -/
def fUnsatMixed : Formula := .gate .AND [.lit "a", .gate .NOT [.lit "a"]]

/-- The contradiction `(a OR-gate) AND (NOT a)`, written with gate operands
only so that the evaluator's all-literal special case is not triggered. -/
def fUnsatGates : Formula := .gate .AND [.gate .OR [.lit "a"], .gate .NOT [.lit "a"]]

/-- A feasible 0/1 point of the encoding of `fUnsatMixed`:
`x_a = 0`, `aux_0 = 1` (the NOT), `aux_1 = 0` (the root AND). -/
def gC3 : Var → Int :=
  fun v => match v with
  | .aux 0 => 1
  | _ => 0

/-- A feasible 0/1 point of the encoding of `fUnsatGates`:
`x_a = 0`, `aux_0 = 0` (the OR), `aux_1 = 1` (the NOT), `aux_2 = 0` (root). -/
def gC2 : Var → Int :=
  fun v => match v with
  | .aux 1 => 1
  | _ => 0

/-- The all-ones assignment, used to instantiate hypothesis-bearing
theorems at a concrete input. -/
def gOne : Var → Int := fun _ => 1

/-- Correspondence between the variables produced by two encoder runs whose
auxiliary counters started at `cA` and `cB`: literal variables agree, and
auxiliary indices agree relative to their starting counters. -/
def varRel (cA cB : Nat) : Var → Var → Prop
  | .x s, .x t => s = t
  | .aux m, .aux n => m + cB = n + cA
  | _, _ => False

/-- Correspondence of coefficient/variable pairs under `varRel`. -/
def pairRel (cA cB : Nat) (p q : Int × Var) : Prop :=
  p.1 = q.1 ∧ varRel cA cB p.2 q.2

/-- Two constraints have the same shape up to auxiliary renaming: same
relation, same constant, and pointwise-related variables. -/
def conRel (cA cB : Nat) (k l : LinCon) : Prop :=
  varRel cA cB k.lhs l.lhs ∧ k.rel = l.rel ∧
    List.Forall₂ (pairRel cA cB) k.coeffs l.coeffs ∧ k.const = l.const

/-- Correspondence of two `process_set` outcomes for runs that started with
constraint lists `csA`, `csB` and counters `cA`, `cB`: they fail with the
same error, or succeed with related result variables, counters advanced by
the same amount, and newly appended constraints of identical count and
shape up to auxiliary renaming. -/
def outRel (cA cB : Nat) (csA csB : List LinCon) :
    Except PyErr (Var × EncState) → Except PyErr (Var × EncState) → Prop
  | .error e1, .error e2 => e1 = e2
  | .ok (wA, stA), .ok (wB, stB) =>
      varRel cA cB wA wB ∧ stA.count + cB = stB.count + cA ∧
        ∃ dA dB, stA.cons = csA ++ dA ∧ stB.cons = csB ++ dB ∧
          List.Forall₂ (conRel cA cB) dA dB
  | _, _ => False

/-- `outRel` for `process_list` outcomes. -/
def outRelL (cA cB : Nat) (csA csB : List LinCon) :
    Except PyErr (List Var × EncState) → Except PyErr (List Var × EncState) → Prop
  | .error e1, .error e2 => e1 = e2
  | .ok (wsA, stA), .ok (wsB, stB) =>
      List.Forall₂ (varRel cA cB) wsA wsB ∧ stA.count + cB = stB.count + cA ∧
        ∃ dA dB, stA.cons = csA ++ dA ∧ stB.cons = csB ++ dB ∧
          List.Forall₂ (conRel cA cB) dA dB
  | _, _ => False

/-- The constraints `sat_to_ilp` produces for `Gate(AND, [a, b])`. -/
def consAndAB : List LinCon :=
  [⟨.aux 0, .le, [(1, .x "a")], 0⟩,
   ⟨.aux 0, .le, [(1, .x "b")], 0⟩,
   ⟨.aux 0, .ge, [(1, .x "a"), (1, .x "b")], -1⟩]

/-- The constraints `sat_to_ilp` produces for `fUnsatMixed`. -/
def consUnsatMixed : List LinCon :=
  [⟨.aux 0, .eq, [(-1, .x "a")], 1⟩,
   ⟨.aux 1, .le, [(1, .x "a")], 0⟩,
   ⟨.aux 1, .le, [(1, .aux 0)], 0⟩,
   ⟨.aux 1, .ge, [(1, .x "a"), (1, .aux 0)], -1⟩]

/-- The constraints `sat_to_ilp` produces for `fUnsatGates`. -/
def consUnsatGates : List LinCon :=
  [⟨.aux 0, .ge, [(1, .x "a")], 0⟩,
   ⟨.aux 0, .le, [(1, .x "a")], 0⟩,
   ⟨.aux 1, .eq, [(-1, .x "a")], 1⟩,
   ⟨.aux 2, .le, [(1, .aux 0)], 0⟩,
   ⟨.aux 2, .le, [(1, .aux 1)], 0⟩,
   ⟨.aux 2, .ge, [(1, .aux 0), (1, .aux 1)], -1⟩]

lemma sum_le_length_int (l : List Int) (h : ∀ x ∈ l, x ≤ 1) :
    l.sum ≤ (l.length : Int) := by
  induction l with
  | nil => simp
  | cons a t ih =>
      have ha : a ≤ 1 := h a (by simp)
      have ht : t.sum ≤ (t.length : Int) := ih (fun x hx => h x (by simp [hx]))
      simp only [List.sum_cons, List.length_cons]
      push_cast
      omega

lemma sum_all_one_int (l : List Int) (h : ∀ x ∈ l, x = 1) :
    l.sum = (l.length : Int) := by
  induction l with
  | nil => simp
  | cons a t ih =>
      have ha : a = 1 := h a (by simp)
      have ht : t.sum = (t.length : Int) := ih (fun x hx => h x (by simp [hx]))
      simp only [List.sum_cons, List.length_cons]
      push_cast
      omega

lemma sum_all_zero_int (l : List Int) (h : ∀ x ∈ l, x = 0) : l.sum = 0 := by
  induction l with
  | nil => simp
  | cons a t ih =>
      have ha : a = 0 := h a (by simp)
      have ht : t.sum = 0 := ih (fun x hx => h x (by simp [hx]))
      simp [ha, ht]

lemma sum_le_length_sub_one_int (l : List Int) (h : ∀ x ∈ l, x ≤ 1)
    (h0 : ∃ x ∈ l, x = 0) : l.sum ≤ (l.length : Int) - 1 := by
  induction l with
  | nil => simp at h0
  | cons a t ih =>
      rcases h0 with ⟨x, hx, hx0⟩
      have ha : a ≤ 1 := h a (by simp)
      rcases List.mem_cons.mp hx with h1 | h1
      · have ht : t.sum ≤ (t.length : Int) :=
          sum_le_length_int t (fun y hy => h y (by simp [hy]))
        simp only [List.sum_cons, List.length_cons]
        push_cast
        omega
      · have ht : t.sum ≤ (t.length : Int) - 1 :=
          ih (fun y hy => h y (by simp [hy])) ⟨x, h1, hx0⟩
        simp only [List.sum_cons, List.length_cons]
        push_cast
        omega

lemma one_le_sum_int (l : List Int) (h : ∀ x ∈ l, 0 ≤ x)
    (h1 : ∃ x ∈ l, x = 1) : 1 ≤ l.sum := by
  induction l with
  | nil => simp at h1
  | cons a t ih =>
      have ha : 0 ≤ a := h a (by simp)
      rcases h1 with ⟨x, hx, hx1⟩
      rcases List.mem_cons.mp hx with h2 | h2
      · have ht : 0 ≤ t.sum := List.sum_nonneg (fun y hy => h y (by simp [hy]))
        simp only [List.sum_cons]
        omega
      · have ht : 1 ≤ t.sum := ih (fun y hy => h y (by simp [hy])) ⟨x, h2, hx1⟩
        simp only [List.sum_cons]
        omega

lemma satAll_andCons_iff (a : Var) (ws : List Var) (g : Var → Int) :
    satAll (andCons a ws) g = true ↔
      ((∀ w ∈ ws, g a ≤ g w) ∧
        1 - (ws.length : Int) + (ws.map g).sum ≤ g a) := by
  simp [andCons, satAll, LinCon.check, LinCon.rhs, List.all_append,
    List.all_eq_true, List.map_map, Function.comp_def]

lemma satAll_orCons_iff (a : Var) (ws : List Var) (g : Var → Int) :
    satAll (orCons a ws) g = true ↔
      ((∀ w ∈ ws, g w ≤ g a) ∧ g a ≤ (ws.map g).sum) := by
  simp [orCons, satAll, LinCon.check, LinCon.rhs, List.all_append,
    List.all_eq_true, List.map_map, Function.comp_def]

lemma satAll_notCons_iff (a v : Var) (g : Var → Int) :
    satAll (notCons a v) g = true ↔ g a = 1 - g v := by
  simp [notCons, satAll, LinCon.check, LinCon.rhs, sub_eq_add_neg]

/-- Claim C5: for each gate operator, the emitted constraint shapes are
exactly those of the spec (`andCons`, `orCons`, `notCons` are the lists
`process_set` appends), and over 0/1 values of the auxiliary variable and
the operand variables, the constraints hold exactly when the auxiliary
variable equals the gate's boolean function of the operands. -/
theorem gate_constraint_shapes_binary_iff :
    ∀ (g : Var → Int) (a : Var) (ws : List Var),
      binary (g a) → (∀ w ∈ ws, binary (g w)) →
      (satAll (andCons a ws) g = true ↔ (g a = 1 ↔ ∀ w ∈ ws, g w = 1)) ∧
      (satAll (orCons a ws) g = true ↔ (g a = 1 ↔ ∃ w ∈ ws, g w = 1)) ∧
      (∀ v, binary (g v) →
        (satAll (notCons a v) g = true ↔ (g a = 1 ↔ g v = 0))) := by
  intro g a ws ha hws
  have hle1 : ∀ x ∈ ws.map g, x ≤ 1 := by
    intro x hx
    rcases List.mem_map.mp hx with ⟨w, hw, rfl⟩
    rcases hws w hw with h | h <;> omega
  have hge0 : ∀ x ∈ ws.map g, 0 ≤ x := by
    intro x hx
    rcases List.mem_map.mp hx with ⟨w, hw, rfl⟩
    rcases hws w hw with h | h <;> omega
  have hlen : (ws.map g).length = ws.length := List.length_map ws g
  refine ⟨?_, ?_, ?_⟩
  · rw [satAll_andCons_iff]
    rcases ha with h0 | h1
    · rw [h0]
      constructor
      · rintro ⟨-, hsum⟩
        constructor
        · intro hc
          exact absurd hc (by norm_num)
        · intro hall
          have : (ws.map g).sum = ((ws.map g).length : Int) := by
            refine sum_all_one_int _ ?_
            intro x hx
            rcases List.mem_map.mp hx with ⟨w, hw, rfl⟩
            exact hall w hw
          rw [hlen] at this
          omega
      · intro hiff
        have hnall : ¬ ∀ w ∈ ws, g w = 1 := by
          intro hall
          exact absurd (hiff.mpr hall) (by norm_num)
        constructor
        · intro w hw
          rcases hws w hw with h | h <;> omega
        · push_neg at hnall
          rcases hnall with ⟨w, hw, hwne⟩
          have hw0 : g w = 0 := by rcases hws w hw with h | h <;> omega
          have : (ws.map g).sum ≤ ((ws.map g).length : Int) - 1 :=
            sum_le_length_sub_one_int _ hle1
              ⟨g w, List.mem_map.mpr ⟨w, hw, rfl⟩, hw0⟩
          rw [hlen] at this
          omega
    · rw [h1]
      constructor
      · rintro ⟨hall, -⟩
        constructor
        · intro _
          intro w hw
          have := hall w hw
          rcases hws w hw with h | h <;> omega
        · intro _
          rfl
      · intro hiff
        have hall : ∀ w ∈ ws, g w = 1 := hiff.mp rfl
        constructor
        · intro w hw
          rw [hall w hw]
        · have : (ws.map g).sum = ((ws.map g).length : Int) := by
            refine sum_all_one_int _ ?_
            intro x hx
            rcases List.mem_map.mp hx with ⟨w, hw, rfl⟩
            exact hall w hw
          rw [hlen] at this
          omega
  · rw [satAll_orCons_iff]
    rcases ha with h0 | h1
    · rw [h0]
      constructor
      · rintro ⟨hall, -⟩
        constructor
        · intro hc
          exact absurd hc (by norm_num)
        · rintro ⟨w, hw, hw1⟩
          have := hall w hw
          omega
      · intro hiff
        have hne : ¬ ∃ w ∈ ws, g w = 1 := by
          intro hex
          exact absurd (hiff.mpr hex) (by norm_num)
        push_neg at hne
        constructor
        · intro w hw
          rcases hws w hw with h | h
          · omega
          · exact absurd h (hne w hw)
        · exact List.sum_nonneg hge0
    · rw [h1]
      constructor
      · rintro ⟨-, hsum⟩
        constructor
        · intro _
          by_contra hne
          push_neg at hne
          have hall0 : ∀ x ∈ ws.map g, x = 0 := by
            intro x hx
            rcases List.mem_map.mp hx with ⟨w, hw, rfl⟩
            rcases hws w hw with h | h
            · exact h
            · exact absurd h (hne w hw)
          have := sum_all_zero_int _ hall0
          omega
        · intro _
          rfl
      · intro hiff
        rcases hiff.mp rfl with ⟨w, hw, hw1⟩
        constructor
        · intro u hu
          rcases hws u hu with h | h <;> omega
        · exact one_le_sum_int _ hge0 ⟨g w, List.mem_map.mpr ⟨w, hw, rfl⟩, hw1⟩
  · intro v hv
    rw [satAll_notCons_iff]
    rcases ha with h | h <;> rcases hv with h2 | h2 <;> rw [h, h2] <;> norm_num

/-- Claim C5 witness: the AND/OR/NOT constraint characterization at the
concrete instance `a = aux_0`, operands `[x_a]`, all-ones assignment. -/
theorem gate_constraint_shapes_binary_iff_witness :
    (satAll (andCons (Var.aux 0) [Var.x "a"]) gOne = true ↔
      (gOne (Var.aux 0) = 1 ↔ ∀ w ∈ [Var.x "a"], gOne w = 1)) ∧
    (satAll (orCons (Var.aux 0) [Var.x "a"]) gOne = true ↔
      (gOne (Var.aux 0) = 1 ↔ ∃ w ∈ [Var.x "a"], gOne w = 1)) ∧
    (satAll (notCons (Var.aux 0) (Var.x "a")) gOne = true ↔
      (gOne (Var.aux 0) = 1 ↔ gOne (Var.x "a") = 0)) := by
  have h := gate_constraint_shapes_binary_iff gOne (Var.aux 0) [Var.x "a"]
    (Or.inr rfl) (fun w hw => Or.inr rfl)
  exact ⟨h.1, h.2.1, h.2.2 (Var.x "a") (Or.inr rfl)⟩

/-- Claim C1: the code does not add the hard constraint `root = 1` that the
spec requires.  For `Gate(AND, [a, b])` the returned problem has the root
`aux_0` only as maximization objective; no emitted constraint is even an
equality, and the all-zero point — root variable `aux_0 = 0` included —
satisfies every returned constraint, so feasibility does not force the
root to be true. -/
theorem sat_to_ilp_no_root_constraint :
    sat_to_ilp (.gate .AND [.lit "a", .lit "b"]) =
      .ok ⟨consAndAB, .aux 0, ["a", "b"]⟩ ∧
    (∀ k ∈ consAndAB, k.rel ≠ CRel.eq) ∧
    satAll consAndAB (fun _ => 0) = true := by
  refine ⟨rfl, by decide, rfl⟩

/-- Claim C3: on the unsatisfiable `Gate(AND, [Literal("a"),
Gate(NOT, [Literal("a")])])` the encoded problem (root only maximized, not
constrained) is feasible at the 0/1 point `gC3`, so a sound solver reports
status `Optimal` and `solve_ilp` returns the assignment `{a: False}`
instead of reporting unsatisfiability. -/
theorem solve_ilp_optimal_on_unsat_conjunction :
    sat_to_ilp fUnsatMixed = .ok ⟨consUnsatMixed, .aux 1, ["a"]⟩ ∧
    satAll consUnsatMixed gC3 = true ∧
    (∀ v, binary (gC3 v)) ∧
    solve_ilp fUnsatMixed (fun _ _ => .optimal gC3) = .ok [("a", false)] := by
  refine ⟨rfl, rfl, ?_, rfl⟩
  intro v
  cases v with
  | x s => exact Or.inl rfl
  | aux n =>
      match n with
      | 0 => exact Or.inr rfl
      | 1 => exact Or.inl rfl
      | (m + 2) => exact Or.inl rfl

/-- Claim C2: soundness of `solve` fails.  The encoding of the
unsatisfiable `fUnsatGates` is feasible at the 0/1 point `gC2` (so the
solver reports `Optimal` and `solve_ilp` returns an assignment), and
whatever optimum the solver returns, evaluating the formula under the
returned assignment yields `false`, never `true`. -/
theorem solve_ilp_unsound_on_unsat_formula :
    (sat_to_ilp fUnsatGates = .ok ⟨consUnsatGates, .aux 2, ["a"]⟩ ∧
     satAll consUnsatGates gC2 = true ∧ (∀ v, binary (gC2 v))) ∧
    (∀ (g : Var → Int) (sol : List (String × Bool)),
      solve_ilp fUnsatGates (fun _ _ => .optimal g) = .ok sol →
      verify_sat fUnsatGates (toInput sol) = .ok false) := by
  constructor
  · refine ⟨rfl, rfl, ?_⟩
    intro v
    cases v with
    | x s => exact Or.inl rfl
    | aux n =>
        match n with
        | 0 => exact Or.inl rfl
        | 1 => exact Or.inr rfl
        | (m + 2) => exact Or.inl rfl
  · intro g sol h
    have hs : solve_ilp fUnsatGates (fun _ _ => .optimal g) =
        .ok [("a", decide (g (Var.x "a") ≠ 0))] := rfl
    rw [hs] at h
    injection h with h
    subst h
    cases hd : decide (g (Var.x "a") ≠ 0) <;> rfl

/-- Claim C2 witness: at the concrete feasible optimum `gC2` the solver
stub makes `solve_ilp` return `{a: False}`, and evaluation of the formula
under that returned assignment is `false`. -/
theorem solve_ilp_unsound_on_unsat_formula_witness :
    verify_sat fUnsatGates (toInput [("a", false)]) = .ok false :=
  solve_ilp_unsound_on_unsat_formula.2 gC2 [("a", false)] rfl

/-- Claim C4: the evaluator does not handle gates that mix literal and gate
operands.  On `Gate(OR, [Gate(AND, [a, b]), "c"])` with every literal
assigned `true` (the spec's semantics gives `true`), `verify_sat` recurses
into the bare string operand `"c"` and fails with Python's AttributeError
instead of returning a boolean. -/
theorem verify_sat_mixed_gate_attribute_error :
    verify_sat (.gate .OR [.gate .AND [.lit "a", .lit "b"], .lit "c"])
      (fun _ => some true) = .error .attributeError := rfl

/-- Claim C6: no ArityError exists in the code — the arity check is
commented out.  A NOT gate with two operands is silently encoded (only the
first operand constrained) and silently evaluated, and an AND gate with
zero operands silently evaluates to `true` and encodes to the single
constraint `aux_0 ≥ 1`. -/
theorem malformed_arity_silently_accepted :
    verify_sat (.gate .NOT [.lit "a", .lit "b"]) (fun _ => some true) = .ok false ∧
    sat_to_ilp (.gate .NOT [.lit "a", .lit "b"]) =
      .ok ⟨notCons (.aux 0) (.x "a"), .aux 0, ["a", "b"]⟩ ∧
    verify_sat (.gate .AND []) (fun _ => some true) = .ok true ∧
    sat_to_ilp (.gate .AND []) = .ok ⟨[⟨.aux 0, .ge, [], 1⟩], .aux 0, []⟩ := by
  exact ⟨rfl, rfl, rfl, rfl⟩

/-- Claim C8 counterexample: a Formula that is a single bare Literal is not
accepted by the evaluator: `verify_sat` immediately reads `.values` off the
string and fails with AttributeError instead of returning the literal's
assigned value. -/
theorem verify_sat_bare_literal_rejected :
    verify_sat (.lit "a") (fun s => if s = "a" then some true else none) =
      .error .attributeError ∧
    (Except.error PyErr.attributeError ≠ (Except.ok true : Except PyErr Bool)) :=
  ⟨rfl, fun h => Except.noConfusion h⟩

/-- Claim C8 amended: the encoder accepts a bare-literal formula and
returns that literal's decision variable as the root with no constraints,
but the evaluator rejects it with AttributeError for every assignment. -/
theorem bare_literal_encode_ok_evaluate_fails :
    ∀ (s : String) (input : String → Option Bool),
      sat_to_ilp (.lit s) = .ok ⟨[], .x s, [s]⟩ ∧
      verify_sat (.lit s) input = .error .attributeError := by
  intro s input
  exact ⟨rfl, rfl⟩

lemma process_list_length : ∀ (vs : List Formula) (st : EncState)
    (ws : List Var) (st1 : EncState),
    process_list vs st = .ok (ws, st1) → ws.length = vs.length := by
  intro vs
  induction vs with
  | nil =>
      intro st ws st1 h
      simp only [process_list, Except.ok.injEq, Prod.mk.injEq] at h
      rw [← h.1]
      rfl
  | cons f fs ih =>
      intro st ws st1 h
      cases hf : process_set f st with
      | error e => simp [process_list, hf] at h
      | ok p =>
          obtain ⟨w, stx⟩ := p
          cases hl : process_list fs stx with
          | error e => simp [process_list, hf, hl] at h
          | ok q =>
              obtain ⟨ws2, st2⟩ := q
              simp only [process_list, hf, hl, Except.ok.injEq, Prod.mk.injEq] at h
              rw [← h.1]
              simp [ih stx ws2 st2 hl]

lemma all_isStr_lits (ts : List String) : (ts.map Formula.lit).all isStr = true := by
  induction ts with
  | nil => rfl
  | cons t ts2 ih => simp [isStr, ih]

lemma filterMap_strName_lits (ts : List String) :
    (ts.map Formula.lit).filterMap strName = ts := by
  induction ts with
  | nil => rfl
  | cons t ts2 ih => simp [List.filterMap_cons, strName, ih]

/-- Claim C10: a NOT gate with more than one operand does not fail.
Whenever the recursive encoding of all its operands succeeds (their
variables and constraints accumulated in `st1`, one result variable per
operand), the gate itself is encoded without error and the only constraint
it adds is `aux = 1 − w` about the first operand's variable `w`; the
remaining operand variables appear in no NOT-emitted constraint.  Likewise
the evaluator's all-literal NOT branch returns the negation of the first
operand's value, ignoring every remaining operand and its assignment
status. -/
theorem not_gate_extra_operands_ignored :
    (∀ (vs : List Formula) (st : EncState) (ws : List Var) (st1 : EncState),
      1 < vs.length →
      process_list vs st = .ok (ws, st1) →
      ws.length = vs.length ∧
      ∃ w rest, ws = w :: rest ∧
        process_set (.gate .NOT vs) st =
          .ok (Var.aux st1.count,
            ⟨st1.vars, st1.count + 1, st1.cons ++ notCons (Var.aux st1.count) w⟩)) ∧
    (∀ (s : String) (ts : List String) (input : String → Option Bool) (b : Bool),
      input s = some b →
      verify_sat (.gate .NOT (.lit s :: ts.map .lit)) input = .ok (!b)) := by
  constructor
  · intro vs st ws st1 hlen hpl
    have hws : ws.length = vs.length := process_list_length vs st ws st1 hpl
    cases ws with
    | nil =>
        exact absurd hws (by simp; omega)
    | cons w rest =>
        refine ⟨hws, w, rest, rfl, ?_⟩
        simp only [process_set, hpl]
  · intro s ts input b hb
    have hcond : ((Formula.lit s) :: ts.map Formula.lit).all isStr = true := by
      simp [isStr, all_isStr_lits ts]
    have hnames : ((Formula.lit s) :: ts.map Formula.lit).filterMap strName =
        s :: ts := by
      simp [List.filterMap_cons, strName, filterMap_strName_lits ts]
    simp only [verify_sat, hcond, if_true, hnames]
    simp only [use_operator_on_values, hb]

/-- Claim C10 witness: at `Gate(NOT, ["a", "b"])` with both operands
assigned `true` — operand processing succeeds with one variable per
operand, the gate encodes only `aux_0 = 1 − x_a`, and evaluation returns
the negation of `a`'s value alone. -/
theorem not_gate_extra_operands_ignored_witness :
    (([Var.x "a", Var.x "b"] : List Var).length =
        ([Formula.lit "a", Formula.lit "b"] : List Formula).length ∧
      ∃ w rest, ([Var.x "a", Var.x "b"] : List Var) = w :: rest ∧
        process_set (.gate .NOT [.lit "a", .lit "b"]) ⟨[], 0, []⟩ =
          .ok (Var.aux 0, ⟨["a", "b"], 1, notCons (Var.aux 0) w⟩)) ∧
    verify_sat (.gate .NOT [.lit "a", .lit "b"]) (fun _ => some true) =
      .ok (!true) :=
  ⟨not_gate_extra_operands_ignored.1 [.lit "a", .lit "b"] ⟨[], 0, []⟩
      [Var.x "a", Var.x "b"] ⟨["a", "b"], 0, []⟩ (by decide) rfl,
   not_gate_extra_operands_ignored.2 "a" ["b"] (fun _ => some true) true rfl⟩

lemma allValues_keyError (vs : List String) (input : String → Option Bool)
    (k : String) (h : allValues vs input = .error (.keyError k)) :
    k ∈ vs ∧ input k = none := by
  induction vs with
  | nil => simp [allValues] at h
  | cons v t ih =>
      cases hv : input v with
      | none =>
          simp only [allValues, hv] at h
          injection h with h
          injection h with h
          subst h
          exact ⟨by simp, hv⟩
      | some b =>
          cases b with
          | false => simp [allValues, hv] at h
          | true =>
              simp only [allValues, hv] at h
              rcases ih h with ⟨h1, h2⟩
              exact ⟨by simp [h1], h2⟩

lemma anyValues_keyError (vs : List String) (input : String → Option Bool)
    (k : String) (h : anyValues vs input = .error (.keyError k)) :
    k ∈ vs ∧ input k = none := by
  induction vs with
  | nil => simp [anyValues] at h
  | cons v t ih =>
      cases hv : input v with
      | none =>
          simp only [anyValues, hv] at h
          injection h with h
          injection h with h
          subst h
          exact ⟨by simp, hv⟩
      | some b =>
          cases b with
          | true => simp [anyValues, hv] at h
          | false =>
              simp only [anyValues, hv] at h
              rcases ih h with ⟨h1, h2⟩
              exact ⟨by simp [h1], h2⟩

lemma uov_keyError (op : Operator) (vs : List String)
    (input : String → Option Bool) (k : String)
    (h : use_operator_on_values op vs input = .error (.keyError k)) :
    k ∈ vs ∧ input k = none := by
  cases op with
  | AND => exact allValues_keyError vs input k h
  | OR => exact anyValues_keyError vs input k h
  | NOT =>
      cases vs with
      | nil => simp [use_operator_on_values] at h
      | cons v t =>
          cases hv : input v with
          | none =>
              simp only [use_operator_on_values, hv] at h
              injection h with h
              injection h with h
              subst h
              exact ⟨by simp, hv⟩
          | some b => simp [use_operator_on_values, hv] at h

lemma uob_not_keyError (op : Operator) (bs : List Bool) (k : String) :
    use_operator_on_booleans op bs ≠ .error (.keyError k) := by
  cases op with
  | AND => simp [use_operator_on_booleans]
  | OR => simp [use_operator_on_booleans]
  | NOT => cases bs <;> simp [use_operator_on_booleans]

lemma mem_filterMap_strName (vs : List Formula) (k : String)
    (h : k ∈ vs.filterMap strName) : k ∈ litsList vs := by
  induction vs with
  | nil => simp at h
  | cons f t ih =>
      cases f with
      | lit s =>
          simp only [List.filterMap_cons, strName] at h
          rcases List.mem_cons.mp h with h1 | h1
          · simp [litsList, litsOf, h1]
          · simp [litsList, ih h1]
      | gate op vs2 =>
          simp only [List.filterMap_cons, strName] at h
          simp [litsList, ih h]

mutual

theorem keyErrSatAux : ∀ (f : Formula) (input : String → Option Bool) (k : String),
    verify_sat f input = .error (.keyError k) → k ∈ litsOf f ∧ input k = none
  | .lit s, input, k => by
      intro h
      simp [verify_sat] at h
  | .gate op vs, input, k => by
      intro h
      simp only [verify_sat] at h
      by_cases hall : vs.all isStr = true
      · simp only [hall, if_true] at h
        rcases uov_keyError op (vs.filterMap strName) input k h with ⟨h1, h2⟩
        exact ⟨by simpa [litsOf] using mem_filterMap_strName vs k h1, h2⟩
      · have hall2 : vs.all isStr = false := by
          cases hb : vs.all isStr with
          | false => rfl
          | true => exact absurd hb hall
        simp only [hall2, Bool.false_eq_true, if_false] at h
        cases hvl : verify_list vs input with
        | error e =>
            rw [hvl] at h
            injection h with h
            subst h
            rcases keyErrListAux vs input k hvl with ⟨h1, h2⟩
            exact ⟨by simpa [litsOf] using h1, h2⟩
        | ok bs =>
            rw [hvl] at h
            exact absurd h (uob_not_keyError op bs k)

theorem keyErrListAux : ∀ (fs : List Formula) (input : String → Option Bool) (k : String),
    verify_list fs input = .error (.keyError k) → k ∈ litsList fs ∧ input k = none
  | [], input, k => by
      intro h
      simp [verify_list] at h
  | f :: fs, input, k => by
      intro h
      simp only [verify_list] at h
      cases hf : verify_sat f input with
      | error e =>
          rw [hf] at h
          injection h with h
          subst h
          rcases keyErrSatAux f input k hf with ⟨h1, h2⟩
          exact ⟨by simp [litsList, h1], h2⟩
      | ok b =>
          rw [hf] at h
          cases ht : verify_list fs input with
          | error e =>
              rw [ht] at h
              injection h with h
              subst h
              rcases keyErrListAux fs input k ht with ⟨h1, h2⟩
              exact ⟨by simp [litsList, h1], h2⟩
          | ok bs =>
              rw [ht] at h
              simp at h

end

/-- Claim C7 counterexample: the evaluator can return a boolean even though
the assignment lacks a value for a literal the formula references.  On
`Gate(OR, ["a", "b"])` with only `a ↦ true`, Python's `any` short-circuits
at `a` and returns `true` without ever reading the missing `b`. -/
theorem verify_sat_missing_literal_no_failure :
    verify_sat (.gate .OR [.lit "a", .lit "b"])
      (fun s => if s = "a" then some true else none) = .ok true ∧
    "b" ∈ litsOf (.gate .OR [.lit "a", .lit "b"]) ∧
    (fun s => if s = "a" then some true else none) "b" = (none : Option Bool) := by
  refine ⟨rfl, ?_, rfl⟩
  simp [litsOf, litsList]

/-- Claim C7 amended: when the evaluator does fail with a missing-key error
for `k`, then `k` is a literal referenced by the formula with no value in
the assignment; but the converse fails (see the counterexample): a missing
referenced literal does not guarantee the error, because AND/OR
short-circuit and NOT reads only its first operand. -/
theorem verify_sat_keyError_implies_missing :
    ∀ (f : Formula) (input : String → Option Bool) (k : String),
      verify_sat f input = .error (.keyError k) → k ∈ litsOf f ∧ input k = none :=
  fun f input k h => keyErrSatAux f input k h

/-- Claim C7 witness: on `Gate(AND, ["a", "b"])` with the empty assignment
the evaluator fails with KeyError for `"a"`, which is indeed a referenced
literal missing from the assignment. -/
theorem verify_sat_keyError_implies_missing_witness :
    "a" ∈ litsOf (.gate .AND [.lit "a", .lit "b"]) ∧
    (fun _ => (none : Option Bool)) "a" = none :=
  verify_sat_keyError_implies_missing (.gate .AND [.lit "a", .lit "b"])
    (fun _ => none) "a" rfl


lemma varRel_mono {c1A c1B cA cB : Nat} (hc : c1A + cB = c1B + cA)
    {v w : Var} (h : varRel c1A c1B v w) : varRel cA cB v w := by
  cases v with
  | x s =>
      cases w with
      | x t => exact h
      | aux n => exact h.elim
  | aux m =>
      cases w with
      | x t => exact h.elim
      | aux n =>
          have hm : m + c1B = n + c1A := h
          show m + cB = n + cA
          omega

lemma pairRel_mono {c1A c1B cA cB : Nat} (hc : c1A + cB = c1B + cA)
    {p q : Int × Var} (h : pairRel c1A c1B p q) : pairRel cA cB p q :=
  ⟨h.1, varRel_mono hc h.2⟩

lemma conRel_mono {c1A c1B cA cB : Nat} (hc : c1A + cB = c1B + cA)
    {k l : LinCon} (h : conRel c1A c1B k l) : conRel cA cB k l :=
  ⟨varRel_mono hc h.1, h.2.1, h.2.2.1.imp (fun _ _ hp => pairRel_mono hc hp),
    h.2.2.2⟩

lemma forall2_map_of_varRel {cA cB : Nat} {β : Type}
    (F G : Var → β) (R : β → β → Prop)
    (hFG : ∀ v w, varRel cA cB v w → R (F v) (G w)) :
    ∀ {wsA wsB : List Var}, List.Forall₂ (varRel cA cB) wsA wsB →
      List.Forall₂ R (wsA.map F) (wsB.map G) := by
  intro wsA wsB hws
  induction hws with
  | nil => exact .nil
  | cons hv ht ih => exact .cons (hFG _ _ hv) ih

lemma forall2_andCons {cA cB : Nat} {a b : Var} {wsA wsB : List Var}
    (ha : varRel cA cB a b) (hws : List.Forall₂ (varRel cA cB) wsA wsB) :
    List.Forall₂ (conRel cA cB) (andCons a wsA) (andCons b wsB) := by
  have hmap := forall2_map_of_varRel
    (fun v => (⟨a, .le, [(1, v)], 0⟩ : LinCon))
    (fun v => (⟨b, .le, [(1, v)], 0⟩ : LinCon)) (conRel cA cB)
    (fun v w hv => ⟨ha, rfl, .cons ⟨rfl, hv⟩ .nil, rfl⟩) hws
  have hpairs := forall2_map_of_varRel
    (fun v => ((1 : Int), v)) (fun v => ((1 : Int), v)) (pairRel cA cB)
    (fun v w hv => ⟨rfl, hv⟩) hws
  have hlen : wsA.length = wsB.length := hws.length_eq
  exact List.rel_append hmap (.cons ⟨ha, rfl, hpairs, by rw [hlen]⟩ .nil)

lemma forall2_orCons {cA cB : Nat} {a b : Var} {wsA wsB : List Var}
    (ha : varRel cA cB a b) (hws : List.Forall₂ (varRel cA cB) wsA wsB) :
    List.Forall₂ (conRel cA cB) (orCons a wsA) (orCons b wsB) := by
  have hmap := forall2_map_of_varRel
    (fun v => (⟨a, .ge, [(1, v)], 0⟩ : LinCon))
    (fun v => (⟨b, .ge, [(1, v)], 0⟩ : LinCon)) (conRel cA cB)
    (fun v w hv => ⟨ha, rfl, .cons ⟨rfl, hv⟩ .nil, rfl⟩) hws
  have hpairs := forall2_map_of_varRel
    (fun v => ((1 : Int), v)) (fun v => ((1 : Int), v)) (pairRel cA cB)
    (fun v w hv => ⟨rfl, hv⟩) hws
  exact List.rel_append hmap (.cons ⟨ha, rfl, hpairs, rfl⟩ .nil)

lemma forall2_notCons {cA cB : Nat} {a b v w : Var}
    (ha : varRel cA cB a b) (hv : varRel cA cB v w) :
    List.Forall₂ (conRel cA cB) (notCons a v) (notCons b w) :=
  .cons ⟨ha, rfl, .cons ⟨rfl, hv⟩ .nil, rfl⟩ .nil

lemma outRel_ok_ok (cA cB : Nat) (csA csB : List LinCon) (wA wB : Var)
    (stA stB : EncState) :
    outRel cA cB csA csB (.ok (wA, stA)) (.ok (wB, stB)) =
      (varRel cA cB wA wB ∧ stA.count + cB = stB.count + cA ∧
        ∃ dA dB, stA.cons = csA ++ dA ∧ stB.cons = csB ++ dB ∧
          List.Forall₂ (conRel cA cB) dA dB) := rfl

lemma outRelL_ok_ok (cA cB : Nat) (csA csB : List LinCon) (wsA wsB : List Var)
    (stA stB : EncState) :
    outRelL cA cB csA csB (.ok (wsA, stA)) (.ok (wsB, stB)) =
      (List.Forall₂ (varRel cA cB) wsA wsB ∧ stA.count + cB = stB.count + cA ∧
        ∃ dA dB, stA.cons = csA ++ dA ∧ stB.cons = csB ++ dB ∧
          List.Forall₂ (conRel cA cB) dA dB) := rfl

mutual

theorem processSetRelAux : ∀ (f : Formula) (stA stB : EncState),
    outRel stA.count stB.count stA.cons stB.cons
      (process_set f stA) (process_set f stB)
  | .lit s, stA, stB => by
      simp only [process_set]
      cases hA : stA.vars.contains s <;> cases hB : stB.vars.contains s <;>
        simp only [Bool.false_eq_true, if_false, if_true] <;>
        · rw [outRel_ok_ok]
          exact ⟨rfl, Nat.add_comm _ _, [], [],
            (List.append_nil _).symm, (List.append_nil _).symm, .nil⟩
  | .gate op vs, stA, stB => by
      have hIH := processListRelAux vs stA stB
      cases hA : process_list vs stA with
      | error e =>
          cases hB : process_list vs stB with
          | error e2 =>
              rw [hA, hB] at hIH
              simp only [process_set, hA, hB]
              exact hIH
          | ok pB =>
              obtain ⟨wsB, st1B⟩ := pB
              rw [hA, hB] at hIH
              exact hIH.elim
      | ok pA =>
          obtain ⟨wsA, st1A⟩ := pA
          cases hB : process_list vs stB with
          | error e =>
              rw [hA, hB] at hIH
              exact hIH.elim
          | ok pB =>
              obtain ⟨wsB, st1B⟩ := pB
              rw [hA, hB] at hIH
              rw [outRelL_ok_ok] at hIH
              obtain ⟨hws, hcount, dA, dB, hdA, hdB, hd⟩ := hIH
              have haux : varRel stA.count stB.count
                  (Var.aux st1A.count) (Var.aux st1B.count) := hcount
              cases op with
              | AND =>
                  simp only [process_set, hA, hB]
                  rw [outRel_ok_ok]
                  refine ⟨haux, ?_,
                    dA ++ andCons (Var.aux st1A.count) wsA,
                    dB ++ andCons (Var.aux st1B.count) wsB, ?_, ?_,
                    List.rel_append hd (forall2_andCons haux hws)⟩
                  · show st1A.count + 1 + stB.count = st1B.count + 1 + stA.count
                    omega
                  · show st1A.cons ++ andCons (Var.aux st1A.count) wsA =
                      stA.cons ++ (dA ++ andCons (Var.aux st1A.count) wsA)
                    rw [hdA, List.append_assoc]
                  · show st1B.cons ++ andCons (Var.aux st1B.count) wsB =
                      stB.cons ++ (dB ++ andCons (Var.aux st1B.count) wsB)
                    rw [hdB, List.append_assoc]
              | OR =>
                  simp only [process_set, hA, hB]
                  rw [outRel_ok_ok]
                  refine ⟨haux, ?_,
                    dA ++ orCons (Var.aux st1A.count) wsA,
                    dB ++ orCons (Var.aux st1B.count) wsB, ?_, ?_,
                    List.rel_append hd (forall2_orCons haux hws)⟩
                  · show st1A.count + 1 + stB.count = st1B.count + 1 + stA.count
                    omega
                  · show st1A.cons ++ orCons (Var.aux st1A.count) wsA =
                      stA.cons ++ (dA ++ orCons (Var.aux st1A.count) wsA)
                    rw [hdA, List.append_assoc]
                  · show st1B.cons ++ orCons (Var.aux st1B.count) wsB =
                      stB.cons ++ (dB ++ orCons (Var.aux st1B.count) wsB)
                    rw [hdB, List.append_assoc]
              | NOT =>
                  cases hws with
                  | nil =>
                      simp only [process_set, hA, hB]
                      exact rfl
                  | cons hv hrest =>
                      rename_i vA vB restA restB
                      simp only [process_set, hA, hB]
                      rw [outRel_ok_ok]
                      refine ⟨haux, ?_,
                        dA ++ notCons (Var.aux st1A.count) vA,
                        dB ++ notCons (Var.aux st1B.count) vB, ?_, ?_,
                        List.rel_append hd (forall2_notCons haux hv)⟩
                      · show st1A.count + 1 + stB.count = st1B.count + 1 + stA.count
                        omega
                      · show st1A.cons ++ notCons (Var.aux st1A.count) vA =
                          stA.cons ++ (dA ++ notCons (Var.aux st1A.count) vA)
                        rw [hdA, List.append_assoc]
                      · show st1B.cons ++ notCons (Var.aux st1B.count) vB =
                          stB.cons ++ (dB ++ notCons (Var.aux st1B.count) vB)
                        rw [hdB, List.append_assoc]

theorem processListRelAux : ∀ (fs : List Formula) (stA stB : EncState),
    outRelL stA.count stB.count stA.cons stB.cons
      (process_list fs stA) (process_list fs stB)
  | [], stA, stB => by
      simp only [process_list]
      rw [outRelL_ok_ok]
      exact ⟨.nil, Nat.add_comm _ _, [], [],
        (List.append_nil _).symm, (List.append_nil _).symm, .nil⟩
  | f :: fs, stA, stB => by
      have h1 := processSetRelAux f stA stB
      cases hA : process_set f stA with
      | error e =>
          cases hB : process_set f stB with
          | error e2 =>
              rw [hA, hB] at h1
              simp only [process_list, hA, hB]
              exact h1
          | ok pB =>
              obtain ⟨wB, st1B⟩ := pB
              rw [hA, hB] at h1
              exact h1.elim
      | ok pA =>
          obtain ⟨wA, st1A⟩ := pA
          cases hB : process_set f stB with
          | error e =>
              rw [hA, hB] at h1
              exact h1.elim
          | ok pB =>
              obtain ⟨wB, st1B⟩ := pB
              rw [hA, hB] at h1
              rw [outRel_ok_ok] at h1
              obtain ⟨hw, hc1, dA, dB, hdA, hdB, hd⟩ := h1
              have h2 := processListRelAux fs st1A st1B
              cases hA2 : process_list fs st1A with
              | error e =>
                  cases hB2 : process_list fs st1B with
                  | error e2 =>
                      rw [hA2, hB2] at h2
                      simp only [process_list, hA, hB, hA2, hB2]
                      exact h2
                  | ok p2B =>
                      obtain ⟨ws2B, st2B⟩ := p2B
                      rw [hA2, hB2] at h2
                      exact h2.elim
              | ok p2A =>
                  obtain ⟨ws2A, st2A⟩ := p2A
                  cases hB2 : process_list fs st1B with
                  | error e =>
                      rw [hA2, hB2] at h2
                      exact h2.elim
                  | ok p2B =>
                      obtain ⟨ws2B, st2B⟩ := p2B
                      rw [hA2, hB2] at h2
                      rw [outRelL_ok_ok] at h2
                      obtain ⟨hws2, hc2, eA, eB, heA, heB, he⟩ := h2
                      simp only [process_list, hA, hB, hA2, hB2]
                      rw [outRelL_ok_ok]
                      refine ⟨.cons (varRel_mono (by omega) hw)
                          (hws2.imp (fun v w hv => varRel_mono hc1 hv)),
                        by omega, dA ++ eA, dB ++ eB, ?_, ?_,
                        List.rel_append hd (he.imp (fun k l hk => conRel_mono hc1 hk))⟩
                      · rw [heA, hdA, List.append_assoc]
                      · rw [heB, hdB, List.append_assoc]

end

/-- Claim C9: encoding is deterministic and stateless across calls.  Run
from any two encoder states — in particular the fresh state `⟨[], 0, []⟩`
that `sat_to_ilp` builds on every call — `process_set` either fails
identically or produces result variables, counter increments, and newly
emitted constraints that correspond exactly up to renaming of auxiliary
indices relative to the starting counters: same constraint count, same
per-operator shapes, auxiliary variables allocated in the same post-order
sequence.  Two separate `sat_to_ilp` calls are the special case
`stA = stB = ⟨[], 0, []⟩`. -/
theorem process_set_runs_isomorphic :
    ∀ (f : Formula) (stA stB : EncState),
      outRel stA.count stB.count stA.cons stB.cons
        (process_set f stA) (process_set f stB) :=
  fun f stA stB => processSetRelAux f stA stB
